import Mathlib

/-!
Verification of the options-hedge backtesting core.

Shallow embedding of the repository's Python modules over exact rational
arithmetic (`ℚ` for prices, premiums and cash; `ℤ` for contract quantities
and for calendar dates, which the code only ever compares).  Each definition
is translated from the named source file; theorems settle the frozen claims
about the spec.
-/

namespace OptionsHedge

/-- Embedding of `src/options_hedge/option.py`, class `Option`: a put
contract record `{strike, premium, expiry, quantity}`.  Dates
(`datetime` / `pd.Timestamp`) are modelled as integers, since the code only
compares them. -/
structure Option where
  strike : ℚ
  premium : ℚ
  expiry : ℤ
  quantity : ℤ
  deriving DecidableEq

/-- `Option.payoff`: `max(self.strike - current_price, 0.0) * self.quantity`
(`MIN_OPTION_VALUE = 0.0`). -/
def Option.payoff (o : Option) (current_price : ℚ) : ℚ :=
  max (o.strike - current_price) 0 * (o.quantity : ℚ)

/-- `Option.value`: returns `MIN_OPTION_VALUE = 0` when
`current_date >= expiry`, else the intrinsic value (same expression as
`payoff`). -/
def Option.value (o : Option) (current_price : ℚ) (current_date : ℤ) : ℚ :=
  if o.expiry ≤ current_date then 0
  else max (o.strike - current_price) 0 * (o.quantity : ℚ)

/-- `Option.total_cost`: `self.premium * self.quantity`. -/
def Option.total_cost (o : Option) : ℚ :=
  o.premium * (o.quantity : ℚ)

/-- Embedding of `src/options_hedge/portfolio.py`, class `Portfolio`
(dataclass state: equity, cash, option inventory, history ledger,
transaction-cost accounting). -/
structure Portfolio where
  initial_value : ℚ
  beta : ℚ
  equity_value : ℚ
  cash : ℚ
  options : List Option
  history : List (ℤ × ℚ)
  option_bid_ask_spread : ℚ
  equity_transaction_cost : ℚ
  margin_rate : ℚ
  total_transaction_costs : ℚ
  deriving DecidableEq

/-- `Portfolio.buy_put`.  The Python method mutates in place and may raise
`ValueError`; the embedding returns the post-call state together with a
`raised` flag.  The insufficient-funds check in the source precedes every
mutation, so on the raising branch the state at raise time is the input
state, which is what the embedding returns there. -/
def Portfolio.buy_put ( p : Portfolio) (strike premium : ℚ) (expiry : ℤ)
    (quantity : ℤ) (allow_margin : Bool) : Portfolio × Bool :=
  let opt : Option := ⟨strike, premium, expiry, quantity⟩
  let base_cost := opt.total_cost
  let transaction_cost := base_cost * p.option_bid_ask_spread
  let total_cost := base_cost + transaction_cost
  if allow_margin = false ∧ p.cash < total_cost then
    (p, true)
  else
    ({ p with
        options := p.options ++ [opt],
        cash := p.cash - total_cost,
        total_transaction_costs := p.total_transaction_costs + transaction_cost },
      false)

/-- `Portfolio.update_equity`: `equity_value *= 1.0 + daily_return * beta`. -/
def Portfolio.update_equity ( p : Portfolio) (daily_return : ℚ) : Portfolio :=
  { p with equity_value := p.equity_value * (1 + daily_return * p.beta) }

/-- `Portfolio.total_value`: equity plus cash plus the sum of the live
options' values. -/
def Portfolio.total_value ( p : Portfolio) (current_price : ℚ)
    (current_date : ℤ) : ℚ :=
  p.equity_value + p.cash + (p.options.map (fun o => o.value current_price current_date)).sum

/-- `Portfolio.exercise_expired_options`.  The source loops over the
options, credits `cash += payoff` for each expired option whose payoff is
strictly positive, collects every expired option in `expired`, then keeps
`[o for o in self.options if o not in expired]`.  Because the dataclass
compares structurally, an option equal to an expired one has the same
expiry and is therefore itself expired, so the kept list is exactly the
non-expired ones. -/
def Portfolio.exercise_expired_options ( p : Portfolio) (current_price : ℚ)
    (current_date : ℤ) : Portfolio :=
  let expired := p.options.filter (fun o => decide (o.expiry ≤ current_date))
  { p with
    cash := p.cash +
      (expired.map (fun o =>
        if 0 < o.payoff current_price then o.payoff current_price else 0)).sum,
    options := p.options.filter (fun o => decide (current_date < o.expiry)) }

/-- `Portfolio.record`: appends `{"Date": date, "Value": total_value}` to the
history ledger. -/
def Portfolio.record ( p : Portfolio) (date : ℤ) (total_value : ℚ) : Portfolio :=
  { p with history := p.history ++ [(date, total_value)] }

/-- A closed example portfolio used by concrete counterexamples below:
cash 0, no history, a single short (quantity `-1`) put struck at 100
expiring on day 10, bid-ask spread `0.05`. -/
def shortPutPortfolio : Portfolio :=
  { initial_value := 1000, beta := 1, equity_value := 1000, cash := 0,
    options := [⟨100, 5, 10, -1⟩], history := [],
    option_bid_ask_spread := 1/20, equity_transaction_cost := 1/2000,
    margin_rate := 11/200, total_transaction_costs := 0 }

/-- A closed fresh portfolio (cash 0, no options, no history) with spread
`0.05`, used by concrete witnesses below. -/
def freshPortfolio : Portfolio :=
  { initial_value := 1000, beta := 1, equity_value := 1000, cash := 0,
    options := [], history := [],
    option_bid_ask_spread := 1/20, equity_transaction_cost := 1/2000,
    margin_rate := 11/200, total_transaction_costs := 0 }

/-- C7: as stated the claim is false — `payoff` is `max(strike-S,0)*quantity`
and `quantity` may be negative (a short put), giving a negative payoff.
Concretely, a short put (quantity `-1`) struck at 100 evaluated at price 50
has payoff `-50 < 0`, refuting "payoff(S) is always >= 0". -/
theorem option_payoff_nonneg_cex :
    (Option.payoff ⟨100, 5, 10, -1⟩ 50 = -50) ∧ ¬ (0 : ℚ) ≤ Option.payoff ⟨100, 5, 10, -1⟩ 50 := by
  constructor
  · norm_num [Option.payoff, max_def]
  · norm_num [Option.payoff, max_def]

/-- C7 (amended): for every option, price `S` and date `d`:
`payoff S = max (strike - S) 0 * quantity`; `payoff S ≥ 0` whenever
`quantity ≥ 0` (the nonnegativity claimed by the spec holds for long
positions only); `value S d = 0` when `d ≥ expiry`; `value S d = payoff S`
when `d < expiry`; and `total_cost = premium * quantity`. -/
theorem option_ops_spec (o : Option) (S : ℚ) (d : ℤ) :
    o.payoff S = max (o.strike - S) 0 * (o.quantity : ℚ) ∧
    (0 ≤ o.quantity → 0 ≤ o.payoff S) ∧
    (o.expiry ≤ d → o.value S d = 0) ∧
    (d < o.expiry → o.value S d = o.payoff S) ∧
    o.total_cost = o.premium * (o.quantity : ℚ) := by
  refine ⟨rfl, ?_, ?_, ?_, rfl⟩
  · intro hq
    have h0 : (0 : ℚ) ≤ max (o.strike - S) 0 := le_max_right _ _
    have hq' : (0 : ℚ) ≤ (o.quantity : ℚ) := by exact_mod_cast hq
    exact mul_nonneg h0 hq'
  · intro h
    simp [Option.value, h]
  · intro h
    simp [Option.value, Option.payoff, not_le.mpr h]

/-- Closed instantiation of `option_ops_spec` at a long put struck at 100,
quantity 2, price 80, around its expiry day 10. -/
theorem option_ops_spec_witness :
    Option.payoff ⟨100, 5, 10, 2⟩ 80 = 40 ∧
    (0 : ℚ) ≤ Option.payoff ⟨100, 5, 10, 2⟩ 80 ∧
    Option.value ⟨100, 5, 10, 2⟩ 80 10 = 0 ∧
    Option.value ⟨100, 5, 10, 2⟩ 80 9 = 40 ∧
    Option.total_cost ⟨100, 5, 10, 2⟩ = 10 := by
  have h := option_ops_spec ⟨100, 5, 10, 2⟩ 80 9
  have h10 := option_ops_spec ⟨100, 5, 10, 2⟩ 80 10
  refine ⟨by norm_num [Option.payoff, max_def], h.2.1 (by decide),
    h10.2.2.1 (by decide), ?_, by norm_num [Option.total_cost]⟩
  have hv := h.2.2.2.1 (by decide)
  rw [hv]
  norm_num [Option.payoff, max_def]

/-- Unfolded characterization of `Portfolio.buy_put`: the condition and the
debited amounts written with `premium*quantity*(1+spread)` factored. -/
theorem buy_put_def ( p : Portfolio) (strike premium : ℚ) (expiry : ℤ)
    (quantity : ℤ) (allow_margin : Bool) :
    p.buy_put strike premium expiry quantity allow_margin =
      if allow_margin = false ∧
          p.cash < premium * (quantity : ℚ) * (1 + p.option_bid_ask_spread) then
        (p, true)
      else
        ({ p with
            options := p.options ++ [⟨strike, premium, expiry, quantity⟩],
            cash := p.cash - premium * (quantity : ℚ) * (1 + p.option_bid_ask_spread),
            total_transaction_costs := p.total_transaction_costs +
              premium * (quantity : ℚ) * p.option_bid_ask_spread },
          false) := by
  have e1 : premium * (quantity : ℚ) + premium * (quantity : ℚ) * p.option_bid_ask_spread
      = premium * (quantity : ℚ) * (1 + p.option_bid_ask_spread) := by ring
  simp only [Portfolio.buy_put, Option.total_cost, e1]

/-- C4: `buy_put` with margin allowed (or with sufficient cash) never
raises, appends exactly one option carrying the given fields, debits cash
by exactly `premium*quantity*(1+option_bid_ask_spread)` and accumulates
`total_transaction_costs` by exactly
`premium*quantity*option_bid_ask_spread`; equity and history are
unchanged. -/
theorem buy_put_spec ( p : Portfolio) (strike premium : ℚ) (expiry : ℤ)
    (quantity : ℤ) (allow_margin : Bool)
    (h : allow_margin = true ∨
      premium * (quantity : ℚ) * (1 + p.option_bid_ask_spread) ≤ p.cash) :
    (p.buy_put strike premium expiry quantity allow_margin).2 = false ∧
    (p.buy_put strike premium expiry quantity allow_margin).1.options
      = p.options ++ [⟨strike, premium, expiry, quantity⟩] ∧
    (p.buy_put strike premium expiry quantity allow_margin).1.cash
      = p.cash - premium * (quantity : ℚ) * (1 + p.option_bid_ask_spread) ∧
    (p.buy_put strike premium expiry quantity allow_margin).1.total_transaction_costs
      = p.total_transaction_costs + premium * (quantity : ℚ) * p.option_bid_ask_spread ∧
    (p.buy_put strike premium expiry quantity allow_margin).1.equity_value
      = p.equity_value ∧
    (p.buy_put strike premium expiry quantity allow_margin).1.history
      = p.history := by
  have hcond : ¬ (allow_margin = false ∧
      p.cash < premium * (quantity : ℚ) * (1 + p.option_bid_ask_spread)) := by
    rcases h with h | h
    · rintro ⟨hfalse, -⟩
      rw [h] at hfalse
      simp at hfalse
    · rintro ⟨-, hlt⟩
      exact absurd h (not_le.mpr hlt)
  rw [buy_put_def, if_neg hcond]
  exact ⟨rfl, rfl, rfl, rfl, rfl, rfl⟩

/-- Closed instantiation of `buy_put_spec`: the spec's worked example —
`buy_put(strike=90, premium=10, quantity=1)` with spread `0.05` on a
portfolio with cash 0 (margin allowed) leaves `cash = -10.5` and
`total_transaction_costs = 0.5`. -/
theorem buy_put_spec_witness :
    (freshPortfolio.buy_put 90 10 100 1 true).2 = false ∧
    (freshPortfolio.buy_put 90 10 100 1 true).1.cash = -(21/2) ∧
    (freshPortfolio.buy_put 90 10 100 1 true).1.total_transaction_costs = 1/2 ∧
    (freshPortfolio.buy_put 90 10 100 1 true).1.options = [⟨90, 10, 100, 1⟩] := by
  have h := buy_put_spec freshPortfolio 90 10 100 1 true (Or.inl rfl)
  refine ⟨h.1, ?_, ?_, ?_⟩
  · rw [h.2.2.1]; norm_num [freshPortfolio]
  · rw [h.2.2.2.1]; norm_num [freshPortfolio]
  · rw [h.2.1]; norm_num [freshPortfolio]

/-- C5: `buy_put` raises exactly when `allow_margin` is false and
`cash < premium*quantity*(1+option_bid_ask_spread)`, and on that path the
state is unchanged (the check precedes every mutation in the source). -/
theorem buy_put_error_iff ( p : Portfolio) (strike premium : ℚ) (expiry : ℤ)
    (quantity : ℤ) (allow_margin : Bool) :
    ((p.buy_put strike premium expiry quantity allow_margin).2 = true ↔
      (allow_margin = false ∧
        p.cash < premium * (quantity : ℚ) * (1 + p.option_bid_ask_spread))) ∧
    ((p.buy_put strike premium expiry quantity allow_margin).2 = true →
      (p.buy_put strike premium expiry quantity allow_margin).1 = p) := by
  by_cases hcond : allow_margin = false ∧
      p.cash < premium * (quantity : ℚ) * (1 + p.option_bid_ask_spread)
  · rw [buy_put_def, if_pos hcond]
    exact ⟨⟨fun _ => hcond, fun _ => rfl⟩, fun _ => rfl⟩
  · rw [buy_put_def, if_neg hcond]
    refine ⟨⟨fun hfalse => ?_, fun hc => absurd hc hcond⟩, fun hfalse => ?_⟩
    · simp at hfalse
    · simp at hfalse

/-- Closed instantiation of `buy_put_error_iff`: with `allow_margin = false`,
cash 0 and total cost `10.5`, the call raises and mutates nothing. -/
theorem buy_put_error_iff_witness :
    (freshPortfolio.buy_put 90 10 100 1 false).2 = true ∧
    (freshPortfolio.buy_put 90 10 100 1 false).1 = freshPortfolio := by
  have h := buy_put_error_iff freshPortfolio 90 10 100 1 false
  have hr : (freshPortfolio.buy_put 90 10 100 1 false).2 = true :=
    h.1.mpr ⟨rfl, by norm_num [freshPortfolio]⟩
  exact ⟨hr, h.2 hr⟩

/-- The credited amount in `exercise_expired_options` (`payoff` when
strictly positive, else nothing) equals `max payoff 0`. -/
theorem ite_pos_eq_max (x : ℚ) : (if 0 < x then x else 0) = max x 0 := by
  rcases le_or_lt x 0 with h | h
  · rw [if_neg (not_lt.mpr h), max_eq_right h]
  · rw [if_pos h, max_eq_left h.le]

/-- Expired-and-kept predicates are contradictory, so filtering the kept
options for expired ones yields nothing. -/
theorem filter_expired_of_kept (l : List Option) (d : ℤ) :
    (l.filter (fun o => decide (d < o.expiry))).filter
      (fun o => decide (o.expiry ≤ d)) = [] := by
  rw [List.filter_filter]
  have h : ∀ o : Option,
      (decide (o.expiry ≤ d) && decide (d < o.expiry)) = false := by
    intro o
    by_cases h : o.expiry ≤ d
    · simp [not_lt.mpr h]
    · simp [h]
  simp [h]

/-- C3: as stated the claim is false — the code credits a payoff only when
it is strictly positive, so an expired in-the-money short put (negative
quantity, payoff `-50`) is removed with no cash movement, while the claim's
"credits cash by option.payoff(S) for every held option whose expiry
satisfies d >= expiry" would debit the cash by 50. -/
theorem exercise_credit_cex :
    (shortPutPortfolio.exercise_expired_options 50 10).cash = 0 ∧
    shortPutPortfolio.cash +
      ((shortPutPortfolio.options.filter (fun o => decide (o.expiry ≤ (10 : ℤ)))).map
        (fun o => o.payoff 50)).sum = -50 := by
  constructor
  · norm_num [Portfolio.exercise_expired_options, shortPutPortfolio,
      Option.payoff, max_def, List.filter]
  · norm_num [shortPutPortfolio, Option.payoff, max_def, List.filter]

/-- C3 (amended): `exercise_expired_options(S, d)` credits cash by the
payoff of every expired option whose payoff is strictly positive (so by
`payoff` itself for every expired option whenever all held positions are
long, with a zero credit for out-of-the-money puts), removes every expired
option (in or out of the money) and no non-expired one, leaves equity and
history untouched, and a second call with the same `(S, d)` is a no-op. -/
theorem exercise_expired_spec ( p : Portfolio) (S : ℚ) (d : ℤ) :
    (p.exercise_expired_options S d).cash
      = p.cash + ((p.options.filter (fun o => decide (o.expiry ≤ d))).map
          (fun o => max (o.payoff S) 0)).sum ∧
    (p.exercise_expired_options S d).options
      = p.options.filter (fun o => decide (d < o.expiry)) ∧
    ((∀ o ∈ p.options, 0 ≤ o.quantity) →
      (p.exercise_expired_options S d).cash
        = p.cash + ((p.options.filter (fun o => decide (o.expiry ≤ d))).map
            (fun o => o.payoff S)).sum) ∧
    (p.exercise_expired_options S d).equity_value = p.equity_value ∧
    (p.exercise_expired_options S d).history = p.history ∧
    (p.exercise_expired_options S d).exercise_expired_options S d
      = p.exercise_expired_options S d := by
  refine ⟨?_, rfl, ?_, rfl, rfl, ?_⟩
  · simp only [Portfolio.exercise_expired_options, ite_pos_eq_max]
  · intro hlong
    simp only [Portfolio.exercise_expired_options, ite_pos_eq_max]
    congr 1
    congr 1
    refine List.map_congr_left ?_
    intro o ho
    have hmem : o ∈ p.options := (List.mem_filter.mp ho).1
    have hq : (0 : ℤ) ≤ o.quantity := hlong o hmem
    have hnn : (0 : ℚ) ≤ o.payoff S := by
      have h0 : (0 : ℚ) ≤ max (o.strike - S) 0 := le_max_right _ _
      have hq' : (0 : ℚ) ≤ (o.quantity : ℚ) := by exact_mod_cast hq
      exact mul_nonneg h0 hq'
    exact max_eq_left hnn
  · show Portfolio.exercise_expired_options _ S d = _
    simp only [Portfolio.exercise_expired_options, List.filter_filter]
    have hfalse : ∀ o : Option,
        (decide (o.expiry ≤ d) && decide (d < o.expiry)) = false := by
      intro o
      by_cases h : o.expiry ≤ d
      · simp [not_lt.mpr h]
      · simp [h]
    congr 1
    · simp [hfalse]
    · simp

/-- Closed instantiation of `exercise_expired_spec` on a long two-option
portfolio: the expired in-the-money put (strike 100, quantity 2) credits
exactly 100 at price 50 and is removed, the live put (expiry 20) stays, and
a repeated call changes nothing. -/
theorem exercise_expired_spec_witness :
    ({ freshPortfolio with
        options := [⟨100, 5, 10, 2⟩, ⟨100, 5, 20, 1⟩] }.exercise_expired_options 50 10).cash
      = 100 ∧
    ({ freshPortfolio with
        options := [⟨100, 5, 10, 2⟩, ⟨100, 5, 20, 1⟩] }.exercise_expired_options 50 10).options
      = [⟨100, 5, 20, 1⟩] ∧
    (({ freshPortfolio with
        options := [⟨100, 5, 10, 2⟩, ⟨100, 5, 20, 1⟩] }.exercise_expired_options 50 10).exercise_expired_options 50 10)
      = { freshPortfolio with
          options := [⟨100, 5, 10, 2⟩, ⟨100, 5, 20, 1⟩] }.exercise_expired_options 50 10 := by
  have h := exercise_expired_spec
    { freshPortfolio with options := [⟨100, 5, 10, 2⟩, ⟨100, 5, 20, 1⟩] } 50 10
  refine ⟨?_, ?_, h.2.2.2.2.2⟩
  · rw [h.2.2.1 (by intro o ho; fin_cases ho <;> norm_num)]
    norm_num [freshPortfolio, Option.payoff, max_def, List.filter]
  · rw [h.2.1]
    norm_num [freshPortfolio, List.filter]

/-- C10: `exercise_expired_options` never decreases cash — only strictly
positive payoffs are credited, so an expired in-the-money short put is
removed without a debit. -/
theorem exercise_never_debits ( p : Portfolio) (S : ℚ) (d : ℤ) :
    p.cash ≤ (p.exercise_expired_options S d).cash := by
  simp only [Portfolio.exercise_expired_options]
  have h : (0 : ℚ) ≤
      ((p.options.filter (fun o => decide (o.expiry ≤ d))).map (fun o =>
        if 0 < o.payoff S then o.payoff S else 0)).sum := by
    refine List.sum_nonneg ?_
    intro x hx
    obtain ⟨o, -, rfl⟩ := List.mem_map.mp hx
    by_cases hpos : 0 < o.payoff S
    · rw [if_pos hpos]; exact hpos.le
    · rw [if_neg hpos]
  linarith

/-- One row of the market's time-ordered data, as consumed by
`run_simulation` in `src/options_hedge/simulation.py`: the date, the
`Close` price and the `Returns` value. -/
structure Row where
  date : ℤ
  close : ℚ
  ret : ℚ
  deriving DecidableEq

/-- Embedding of `run_simulation` (`src/options_hedge/simulation.py`): for
each market row in order, update equity from the day's return, invoke the
strategy, exercise expired options, then record the day's total value.  A
strategy `(portfolio, price, date, params, market) -> None` mutates the
portfolio and the `params` bag in place; the embedding threads both as
state of type `Portfolio × σ` (the market argument is only read by
strategies, not by the loop, and is dropped).  The Python function returns
`pd.DataFrame(portfolio.history)`; here the final state carries that
history. -/
def run_simulation {σ : Type} (market : List Row) ( p : Portfolio)
    (strategy : Portfolio → ℚ → ℤ → σ → Portfolio × σ) (params : σ) :
    Portfolio × σ :=
  match market with
  | [] => (p, params)
  | row :: rest =>
      let p1 := p.update_equity row.ret
      let s2 := strategy p1 row.close row.date params
      let p3 := s2.1.exercise_expired_options row.close row.date
      let p4 := p3.record row.date (p3.total_value row.close row.date)
      run_simulation rest p4 strategy s2.2

/-- The no-op strategy: reads nothing, mutates nothing. -/
def noopStrategy (σ : Type) : Portfolio → ℚ → ℤ → σ → Portfolio × σ :=
  fun q _ _ s => (q, s)

/-- The history the spec's compounding law predicts for a no-op run: one
row per market row, each value compounding the running equity by
`(1 + dailyReturn*beta)`. -/
def compoundedValues (v beta : ℚ) : List Row → List (ℤ × ℚ)
  | [] => []
  | row :: rest =>
      (row.date, v * (1 + row.ret * beta)) :: compoundedValues (v * (1 + row.ret * beta)) beta rest

/-- For any strategy that does not touch the history ledger, one history
row is appended per market row, in market order. -/
theorem run_simulation_dates {σ : Type}
    (strategy : Portfolio → ℚ → ℤ → σ → Portfolio × σ)
    (hstrat : ∀ q x d s, ((strategy q x d s).1).history = q.history) :
    ∀ (market : List Row) ( p : Portfolio) (params : σ),
      ((run_simulation market p strategy params).1.history.map Prod.fst)
        = p.history.map Prod.fst ++ market.map Row.date := by
  intro market
  induction market with
  | nil => intro p params; simp [run_simulation]
  | cons row rest ih =>
      intro p params
      rw [run_simulation]
      rw [ih]
      have hhist :
          ((strategy (p.update_equity row.ret) row.close row.date params).1.exercise_expired_options
              row.close row.date).history
            = p.history := by
        rw [show ((strategy (p.update_equity row.ret) row.close row.date params).1.exercise_expired_options
              row.close row.date).history
            = ((strategy (p.update_equity row.ret) row.close row.date params).1).history from rfl]
        rw [hstrat]
        rfl
      simp only [Portfolio.record, List.map_append, hhist]
      simp

/-- Helper for the no-op closed form: a run with the no-op strategy from
any state with zero cash and no options appends exactly the compounded
values to the history. -/
theorem run_simulation_noop_aux {σ : Type} :
    ∀ (market : List Row) ( p : Portfolio) (params : σ),
      p.cash = 0 → p.options = [] →
      (run_simulation market p (noopStrategy σ) params).1.history
        = p.history ++ compoundedValues p.equity_value p.beta market := by
  intro market
  induction market with
  | nil => intro p params hc ho; simp [run_simulation, compoundedValues]
  | cons row rest ih =>
      intro p params hc ho
      rw [run_simulation, compoundedValues]
      have hstep :
          ((noopStrategy σ (p.update_equity row.ret) row.close row.date params).1.exercise_expired_options
              row.close row.date)
            = { p.update_equity row.ret with
                cash := p.cash,
                options := [] } := by
        simp [noopStrategy, Portfolio.exercise_expired_options, Portfolio.update_equity, ho]
      rw [hstep]
      rw [ih _ _ (by simpa using hc) rfl]
      simp [Portfolio.record, Portfolio.total_value, Portfolio.update_equity, hc, ho,
        compoundedValues, mul_comm]

/-- C6: `run_simulation` handles each market row in the fixed order
equity-update, strategy, exercise, record (this is the definition of
`run_simulation` above, mirroring the source); consequently (1) for every
market series and every strategy that leaves the ledger alone, the history
gains exactly one `(date, value)` row per market row, in market order, and
(2) with the no-op strategy, zero initial cash, no options and an empty
ledger, each recorded value equals `initial_value` compounded by
`(1 + dailyReturn*beta)` over the days so far. -/
theorem run_simulation_spec {σ : Type}
    (strategy : Portfolio → ℚ → ℤ → σ → Portfolio × σ)
    (market : List Row) ( p : Portfolio) (params : σ)
    (hstrat : ∀ q x d s, ((strategy q x d s).1).history = q.history)
    (hfresh : p.cash = 0 ∧ p.options = [] ∧ p.history = [] ∧
      p.equity_value = p.initial_value) :
    ((run_simulation market p strategy params).1.history.map Prod.fst)
      = market.map Row.date ∧
    (run_simulation market p (noopStrategy σ) params).1.history
      = compoundedValues p.initial_value p.beta market := by
  constructor
  · rw [run_simulation_dates strategy hstrat market p params, hfresh.2.2.1]
    simp
  · rw [run_simulation_noop_aux market p params hfresh.1 hfresh.2.1,
      hfresh.2.2.1, hfresh.2.2.2]
    simp

/-- Closed instantiation of `run_simulation_spec` on a scripted two-day
market (returns +10% then -20%, beta 1, initial value 1000): the run
records exactly the two dates, with values 1100 then 880. -/
theorem run_simulation_spec_witness :
    ((run_simulation [⟨1, 100, 1/10⟩, ⟨2, 90, -(1/5)⟩] freshPortfolio
        (noopStrategy Unit) ()).1.history.map Prod.fst) = [1, 2] ∧
    (run_simulation [⟨1, 100, 1/10⟩, ⟨2, 90, -(1/5)⟩] freshPortfolio
        (noopStrategy Unit) ()).1.history = [(1, 1100), (2, 880)] := by
  have h := run_simulation_spec (noopStrategy Unit)
    [⟨1, 100, 1/10⟩, ⟨2, 90, -(1/5)⟩] freshPortfolio ()
    (fun q x d s => rfl) ⟨rfl, rfl, rfl, rfl⟩
  refine ⟨h.1, ?_⟩
  rw [h.2]
  norm_num [compoundedValues, freshPortfolio]

/-- Embedding of `estimate_put_premium` (`src/options_hedge/strategies.py`).
The source computes `time_factor = (days_to_expiry / 365.0) ** 0.5`, an
irrational number in general; the embedding takes that square root as the
`time_factor` argument (so `days_to_expiry = 365` corresponds to
`time_factor = 1`), which preserves every claim quantified over positive
`days_to_expiry` since the square root of a positive number is exactly the
positive `time_factor`.  OTM branch (`moneyness < 1`):
`max(distance * implied_vol * time_factor * 0.4, 0.001)`; ITM branch:
`max((strike-spot)/spot + implied_vol * time_factor * 0.1, 0.001)`. -/
def estimate_put_premium (strike spot time_factor vix : ℚ) : ℚ :=
  let moneyness := strike / spot
  let implied_vol := vix / 100
  if moneyness < 1 then
    max ((1 - moneyness) * implied_vol * time_factor * (2/5)) (1/1000)
  else
    max ((strike - spot) / spot + implied_vol * time_factor * (1/10)) (1/1000)

/-- C9: as stated the claim is false in two ways.  At spot 100,
`days_to_expiry = 365` (time factor 1), vix 20: the strike-90 put is
priced at `0.008`, strictly below the strike-50 put's `0.04` — the OTM
branch is proportional to `1 - strike/spot`, so the premium falls as the
strike rises toward the money, refuting "monotonically increasing in the
strike"; and a deep ITM strike-300 put is priced at `2.02 > 1`, refuting
"strictly inside (0, 1)". -/
theorem estimate_put_premium_cex :
    estimate_put_premium 90 100 1 20 < estimate_put_premium 50 100 1 20 ∧
    1 < estimate_put_premium 300 100 1 20 := by
  constructor
  · norm_num [estimate_put_premium, max_def]
  · norm_num [estimate_put_premium, max_def]

/-- C9 (amended): for every strike > 0, spot > 0, positive time factor
(i.e. positive days to expiry) and vix > 0, the premium fraction is at
least the floor `0.001` (hence strictly positive, but not bounded by 1);
it is monotonically nondecreasing in the vix volatility proxy; and in the
strike it is nonincreasing across the OTM region (strike < spot) and
nondecreasing across the ITM region (strike ≥ spot) — the claimed
direction holds only in the money. -/
theorem estimate_put_premium_spec (spot time_factor : ℚ)
    (hspot : 0 < spot) (htf : 0 < time_factor) :
    (∀ strike vix, 0 < strike → 0 < vix →
      1/1000 ≤ estimate_put_premium strike spot time_factor vix) ∧
    (∀ strike vix₁ vix₂, 0 < strike → 0 < vix₁ → vix₁ ≤ vix₂ →
      estimate_put_premium strike spot time_factor vix₁
        ≤ estimate_put_premium strike spot time_factor vix₂) ∧
    (∀ strike₁ strike₂ vix, 0 < strike₁ → strike₁ ≤ strike₂ → strike₂ < spot →
      0 < vix →
      estimate_put_premium strike₂ spot time_factor vix
        ≤ estimate_put_premium strike₁ spot time_factor vix) ∧
    (∀ strike₁ strike₂ vix, spot ≤ strike₁ → strike₁ ≤ strike₂ → 0 < vix →
      estimate_put_premium strike₁ spot time_factor vix
        ≤ estimate_put_premium strike₂ spot time_factor vix) := by
  refine ⟨?_, ?_, ?_, ?_⟩
  · intro strike vix _ _
    unfold estimate_put_premium
    by_cases h : strike / spot < 1
    · rw [if_pos h]; exact le_max_right _ _
    · rw [if_neg h]; exact le_max_right _ _
  · intro strike vix₁ vix₂ _ _ hv
    unfold estimate_put_premium
    by_cases h : strike / spot < 1
    · rw [if_pos h, if_pos h]
      have hd : (0 : ℚ) ≤ 1 - strike / spot := by linarith
      have key : ∀ v : ℚ, (1 - strike / spot) * (v / 100) * time_factor * (2/5)
          = v * ((1 - strike / spot) * time_factor / 250) := by intro v; ring
      rw [key, key]
      refine max_le_max (mul_le_mul_of_nonneg_right hv ?_) le_rfl
      positivity
    · rw [if_neg h, if_neg h]
      have key : ∀ v : ℚ, v / 100 * time_factor * (1/10)
          = v * (time_factor / 1000) := by intro v; ring
      rw [key, key]
      refine max_le_max (add_le_add_left (mul_le_mul_of_nonneg_right hv ?_) _) le_rfl
      positivity
  · intro strike₁ strike₂ vix _ hks hk2 hvix
    unfold estimate_put_premium
    have hm2 : strike₂ / spot < 1 := (div_lt_one hspot).mpr hk2
    have hm1 : strike₁ / spot < 1 := (div_lt_one hspot).mpr (lt_of_le_of_lt hks hk2)
    rw [if_pos hm1, if_pos hm2]
    have hmle : strike₁ / spot ≤ strike₂ / spot := by
      exact (div_le_div_iff_of_pos_right hspot).mpr hks
    have key : ∀ m : ℚ, (1 - m) * (vix / 100) * time_factor * (2/5)
        = (1 - m) * (vix * time_factor / 250) := by intro m; ring
    rw [key, key]
    refine max_le_max (mul_le_mul_of_nonneg_right (by linarith) ?_) le_rfl
    positivity
  · intro strike₁ strike₂ vix hk1 hks hvix
    unfold estimate_put_premium
    have hm1 : ¬ strike₁ / spot < 1 := not_lt.mpr ((one_le_div hspot).mpr hk1)
    have hm2 : ¬ strike₂ / spot < 1 :=
      not_lt.mpr ((one_le_div hspot).mpr (le_trans hk1 hks))
    rw [if_neg hm1, if_neg hm2]
    refine max_le_max (add_le_add_right ?_ _) le_rfl
    exact (div_le_div_iff_of_pos_right hspot).mpr (by linarith)

/-- Closed instantiation of `estimate_put_premium_spec` at spot 100, time
factor 1 (365 days), vix 20: the floor holds at strike 90, raising vix to
40 does not lower the strike-90 premium, lowering an OTM strike from 90 to
50 does not lower the premium, and raising an ITM strike from 150 to 300
does not lower it. -/
theorem estimate_put_premium_spec_witness :
    1/1000 ≤ estimate_put_premium 90 100 1 20 ∧
    estimate_put_premium 90 100 1 20 ≤ estimate_put_premium 90 100 1 40 ∧
    estimate_put_premium 90 100 1 20 ≤ estimate_put_premium 50 100 1 20 ∧
    estimate_put_premium 150 100 1 20 ≤ estimate_put_premium 300 100 1 20 := by
  have h := estimate_put_premium_spec 100 1 (by norm_num) (by norm_num)
  exact ⟨h.1 90 20 (by norm_num) (by norm_num),
    h.2.1 90 20 40 (by norm_num) (by norm_num) (by norm_num),
    h.2.2.1 50 90 20 (by norm_num) (by norm_num) (by norm_num) (by norm_num),
    h.2.2.2 150 300 20 (by norm_num) (by norm_num) (by norm_num)⟩

/-- Embedding of `src/options_hedge/vix_floor_lp.py`, dataclass
`PutOption`: a candidate put specification. -/
structure PutOption where
  strike : ℚ
  premium : ℚ
  expiry_years : ℚ
  deriving DecidableEq

/-- One entry of `ladder_budget_allocations`: either a bare budget
fraction or an `(otm_min, otm_max, budget_frac)` triple, as the source
accepts both formats. -/
inductive LadderAlloc
  | frac (f : ℚ)
  | triple (otm_min otm_max f : ℚ)
  deriving DecidableEq

/-- The budget fraction the source extracts from an allocation entry
(`item[2]` for a tuple, the item itself otherwise). -/
def LadderAlloc.budgetFrac : LadderAlloc → ℚ
  | .frac f => f
  | .triple _ _ f => f

/-- The source's default `ladder_budget_allocations`:
`[(0.05, 0.15, 0.05), (0.15, 0.25, 0.15), (0.25, 0.40, 0.30), (0.40, 1.00, 0.50)]`. -/
def defaultLadderAllocs : List LadderAlloc :=
  [.triple (1/20) (3/20) (1/20), .triple (3/20) (1/4) (3/20),
   .triple (1/4) (2/5) (3/10), .triple (2/5) 1 (1/2)]

/-- The rung an option falls into by OTM percentage, testing the four
fixed half-open ranges in ascending order and stopping at the first match
(the source's inner `for`/`break`); `4` means no rung. -/
def rungOf (otm : ℚ) : ℕ :=
  if 1/20 ≤ otm ∧ otm < 3/20 then 0
  else if 3/20 ≤ otm ∧ otm < 1/4 then 1
  else if 1/4 ≤ otm ∧ otm < 2/5 then 2
  else if 2/5 ≤ otm ∧ otm < 1 then 3
  else 4

/-- Stable insertion into a cost-sorted index list: the inserted (earlier)
index goes before any index of equal cost, as Python's stable `sorted`
keeps earlier elements first among ties. -/
def insertByCost (c : List ℚ) (j : ℕ) : List ℕ → List ℕ
  | [] => [j]
  | k :: ks => if c.getD k 0 < c.getD j 0 then k :: insertByCost c j ks else j :: k :: ks

/-- Stable sort of rung indices by cost ascending, modelling
`sorted(rung_indices[k], key=lambda j: c[j])`. -/
def sortByCost (c : List ℚ) : List ℕ → List ℕ
  | [] => []
  | j :: js => insertByCost c j (sortByCost c js)

/-- The greedy allocator's inner loop over one rung's cost-sorted indices:
break once the rung's budget is spent, otherwise buy
`(rung_budget - spent) / c[j]` units of the next option.  Python's float
division raises `ZeroDivisionError` when `c[j] == 0`; the embedding
returns `.error ()` there. -/
def greedyLoop (rung_budget : ℚ) (c : List ℚ) :
    List ℕ → ℚ → List ℚ → Except Unit (ℚ × List ℚ)
  | [], spent, x => .ok (spent, x)
  | j :: rest, spent, x =>
      if rung_budget ≤ spent then .ok (spent, x)
      else if c.getD j 0 = 0 then .error ()
      else
        let q := (rung_budget - spent) / c.getD j 0
        greedyLoop rung_budget c rest (spent + c.getD j 0 * q) (x.set j q)

/-- Fetch `budget_fracs[k]`; Python raises `IndexError` past the end. -/
def getOrErr (l : List ℚ) (k : ℕ) : Except Unit ℚ :=
  if h : k < l.length then .ok (l.get ⟨k, h⟩) else .error ()

/-- The greedy allocator's outer loop over the four rungs: skip a rung
with no candidates or a nonpositive fraction, else run `greedyLoop` on its
cost-sorted indices with budget `total_budget * budget_frac`. -/
def greedyOverRungs (total_budget : ℚ) (c : List ℚ) (budget_fracs : List ℚ)
    (rung_indices : List (List ℕ)) : List ℕ → List ℚ → Except Unit (List ℚ)
  | [], x => .ok x
  | k :: ks, x =>
      match getOrErr budget_fracs k with
      | .error e => .error e
      | .ok frac =>
          let rung := rung_indices.getD k []
          if rung = [] ∨ frac ≤ 0 then
            greedyOverRungs total_budget c budget_fracs rung_indices ks x
          else
            match greedyLoop (total_budget * frac) c (sortByCost c rung) 0 x with
            | .error e => .error e
            | .ok s => greedyOverRungs total_budget c budget_fracs rung_indices ks s.2

/-- Embedding of `solve_vix_ladder_lp` (`src/options_hedge/vix_floor_lp.py`)
on its deterministic greedy path (the Gurobi branch runs only when
`gurobipy` imports; either branch returns the same `total_budget` as the
third component).  Empty input short-circuits to `([], 0.0, 0.0)`.  The
budget is `V0 * 0.01 * (vix/20.0) * max(1.0, beta)`; options are
partitioned into rungs by `(S0 - strike) / S0` (Python raises
`ZeroDivisionError` when `S0 == 0`, modelled as `.error ()`), and the
greedy allocator fills each rung's minimum spend cheapest-first. -/
def solve_vix_ladder_lp (options : List PutOption)
    (V0 S0 beta sigma T_years alpha vix : ℚ)
    (ladder_budget_allocations : List LadderAlloc)
    (transaction_cost_rate : ℚ) : Except Unit (List ℚ × ℚ × ℚ) :=
  if options = [] then .ok ([], 0, 0)
  else
    let budget_fracs := ladder_budget_allocations.map LadderAlloc.budgetFrac
    let total_budget := V0 * (1/100) * (vix / 20) * max 1 beta
    let c := options.map (fun o => o.premium * (1 + transaction_cost_rate))
    if S0 = 0 then .error ()
    else
      let rung_indices := (List.range 4).map (fun k =>
        (List.range options.length).filter (fun j =>
          decide (rungOf ((S0 - (options.getD j ⟨0, 0, 0⟩).strike) / S0) = k)))
      match greedyOverRungs total_budget c budget_fracs rung_indices [0, 1, 2, 3]
          (List.replicate options.length 0) with
      | .error e => .error e
      | .ok x =>
          .ok (x,
            ((List.range options.length).map (fun j => c.getD j 0 * x.getD j 0)).sum,
            total_budget)

/-- Membership is preserved by `insertByCost`. -/
theorem mem_insertByCost (c : List ℚ) (j a : ℕ) :
    ∀ l : List ℕ, a ∈ insertByCost c j l ↔ a = j ∨ a ∈ l := by
  intro l
  induction l with
  | nil => simp [insertByCost]
  | cons k ks ih =>
      rw [insertByCost]
      by_cases h : c.getD k 0 < c.getD j 0
      · rw [if_pos h]
        simp only [List.mem_cons, ih]
        tauto
      · rw [if_neg h]
        simp only [List.mem_cons]

/-- Membership is preserved by `sortByCost`. -/
theorem mem_sortByCost (c : List ℚ) (a : ℕ) :
    ∀ l : List ℕ, a ∈ sortByCost c l ↔ a ∈ l := by
  intro l
  induction l with
  | nil => simp [sortByCost]
  | cons j js ih =>
      rw [sortByCost, mem_insertByCost]
      simp [ih]

/-- The greedy inner loop is total and preserves nonnegativity and length
of the quantities vector as long as every visited index carries a strictly
positive cost. -/
theorem greedyLoop_total (c : List ℚ) (rb : ℚ) (idxs : List ℕ) :
    ∀ (spent : ℚ) (x : List ℚ),
      (∀ j ∈ idxs, 0 < c.getD j 0) → (∀ q ∈ x, 0 ≤ q) →
      ∃ s, greedyLoop rb c idxs spent x = .ok s ∧
        s.2.length = x.length ∧ (∀ q ∈ s.2, 0 ≤ q) := by
  induction idxs with
  | nil => intro spent x _ hx; exact ⟨(spent, x), rfl, rfl, hx⟩
  | cons j rest ih =>
      intro spent x hc hx
      rw [greedyLoop]
      by_cases hb : rb ≤ spent
      · rw [if_pos hb]; exact ⟨(spent, x), rfl, rfl, hx⟩
      · rw [if_neg hb]
        have hcj : 0 < c.getD j 0 := hc j (List.mem_cons_self j rest)
        rw [if_neg hcj.ne']
        have hq : 0 ≤ (rb - spent) / c.getD j 0 :=
          div_nonneg (by linarith [not_le.mp hb]) hcj.le
        have hx' : ∀ q ∈ x.set j ((rb - spent) / c.getD j 0), 0 ≤ q := by
          intro q hmem
          rcases List.mem_or_eq_of_mem_set hmem with h | h
          · exact hx q h
          · rw [h]; exact hq
        obtain ⟨s, hs, hlen, hpos⟩ :=
          ih _ _ (fun j' hj' => hc j' (List.mem_cons_of_mem _ hj')) hx'
        exact ⟨s, hs, by rw [hlen, List.length_set], hpos⟩

/-- The greedy outer loop is total and preserves nonnegativity and length,
given in-range budget fractions and strictly positive costs on every rung
index. -/
theorem greedyOverRungs_total (tb : ℚ) (c : List ℚ) (fracs : List ℚ)
    (rungs : List (List ℕ))
    (hrungs : ∀ k : ℕ, ∀ j ∈ rungs.getD k [], 0 < c.getD j 0) :
    ∀ (ks : List ℕ) (x : List ℚ),
      (∀ k ∈ ks, k < fracs.length) → (∀ q ∈ x, 0 ≤ q) →
      ∃ x', greedyOverRungs tb c fracs rungs ks x = .ok x' ∧
        x'.length = x.length ∧ (∀ q ∈ x', 0 ≤ q) := by
  intro ks
  induction ks with
  | nil => intro x _ hx; exact ⟨x, rfl, rfl, hx⟩
  | cons k ks ih =>
      intro x hk hx
      rw [greedyOverRungs]
      have hklen : k < fracs.length := hk k (List.mem_cons_self _ _)
      rw [getOrErr, dif_pos hklen]
      by_cases hskip : rungs.getD k [] = [] ∨ fracs.get ⟨k, hklen⟩ ≤ 0
      · obtain ⟨x', hx', hlen, hpos⟩ :=
          ih x (fun k' hk' => hk k' (List.mem_cons_of_mem _ hk')) hx
        refine ⟨x', ?_, hlen, hpos⟩
        show (if rungs.getD k [] = [] ∨ fracs.get ⟨k, hklen⟩ ≤ 0 then _ else _) = _
        rw [if_pos hskip]
        exact hx'
      · have hsorted : ∀ j ∈ sortByCost c (rungs.getD k []), 0 < c.getD j 0 := by
          intro j hj
          exact hrungs k j ((mem_sortByCost c j _).mp hj)
        obtain ⟨s, hs, hslen, hspos⟩ :=
          greedyLoop_total c (tb * fracs.get ⟨k, hklen⟩)
            (sortByCost c (rungs.getD k [])) 0 x hsorted hx
        obtain ⟨x', hx', hlen, hpos⟩ :=
          ih s.2 (fun k' hk' => hk k' (List.mem_cons_of_mem _ hk')) hspos
        refine ⟨x', ?_, by rw [hlen, hslen], hpos⟩
        show (if rungs.getD k [] = [] ∨ fracs.get ⟨k, hklen⟩ ≤ 0 then _ else _) = _
        rw [if_neg hskip, hs]
        exact hx'

/-- C2: as stated the claim is false on the empty-input short circuit —
`solve_vix_ladder_lp([])` returns `([], 0.0, 0.0)`, whose third component
is 0, not `V0 * 0.01 * (vix/20.0) * max(1.0, beta)` (which is 10,000 at
`V0 = 1,000,000`, `vix = 20`, `beta = 1`). -/
theorem vix_ladder_budget_cex :
    solve_vix_ladder_lp [] 1000000 4000 1 (1/5) (1/4) (1/20) 20
      defaultLadderAllocs 0 = .ok ([], 0, 0) ∧
    (0 : ℚ) ≠ 1000000 * (1/100) * (20/20) * max 1 1 := by
  constructor
  · rw [solve_vix_ladder_lp, if_pos rfl]
  · norm_num

/-- C2 (amended): whenever `solve_vix_ladder_lp` returns a result on a
nonempty options list, the third component of that result is exactly
`V0 * 0.01 * (vix/20.0) * max(1.0, beta)`; in particular it is
independent of `beta` whenever `beta ≤ 1` (the beta factor is floored at
1.0). -/
theorem vix_ladder_budget_spec (options : List PutOption)
    (V0 S0 beta sigma T_years alpha vix : ℚ) (allocs : List LadderAlloc)
    (tcr : ℚ) (qs : List ℚ) (tc b : ℚ)
    (hne : options ≠ [])
    (hok : solve_vix_ladder_lp options V0 S0 beta sigma T_years alpha vix
      allocs tcr = .ok (qs, tc, b)) :
    b = V0 * (1/100) * (vix / 20) * max 1 beta ∧
    (beta ≤ 1 → b = V0 * (1/100) * (vix / 20)) := by
  simp only [solve_vix_ladder_lp] at hok
  rw [if_neg hne] at hok
  by_cases hS : S0 = 0
  · rw [if_pos hS] at hok
    cases hok
  · rw [if_neg hS] at hok
    have hb : b = V0 * (1/100) * (vix / 20) * max 1 beta := by
      split at hok
      · cases hok
      · simp only [Except.ok.injEq, Prod.mk.injEq] at hok
        exact hok.2.2.symm
    refine ⟨hb, fun hbeta => ?_⟩
    rw [hb, max_eq_left hbeta, mul_one]

/-- Closed instantiation of `vix_ladder_budget_spec` giving the spec's
budget-scaling table at `V0 = 1,000,000`, `S0 = 4000` with one candidate
put 5% out of the money: 10,000 at `vix=20, beta=1`; 20,000 at `vix=40`;
15,000 at `beta=1.5, vix=20`; and 10,000 again at `beta=0.5` (floor). -/
theorem vix_ladder_budget_spec_witness :
    ((10000 : ℚ) = 1000000 * (1/100) * (20/20) * max 1 1) ∧
    ((20000 : ℚ) = 1000000 * (1/100) * (40/20) * max 1 1) ∧
    ((15000 : ℚ) = 1000000 * (1/100) * (20/20) * max 1 (3/2)) ∧
    ((10000 : ℚ) = 1000000 * (1/100) * (20/20) * max 1 (1/2)) := by
  have e1 := vix_ladder_budget_spec [⟨3800, 2, 1/4⟩] 1000000 4000 1 0 0 0 20
    defaultLadderAllocs 0 [250] 500 10000 (by simp)
    (by norm_num [solve_vix_ladder_lp, greedyOverRungs, greedyLoop, sortByCost,
      insertByCost, getOrErr, rungOf, defaultLadderAllocs, LadderAlloc.budgetFrac,
      List.range_succ, List.filter_cons, List.filter_nil])
  have e2 := vix_ladder_budget_spec [⟨3800, 2, 1/4⟩] 1000000 4000 1 0 0 0 40
    defaultLadderAllocs 0 [500] 1000 20000 (by simp)
    (by norm_num [solve_vix_ladder_lp, greedyOverRungs, greedyLoop, sortByCost,
      insertByCost, getOrErr, rungOf, defaultLadderAllocs, LadderAlloc.budgetFrac,
      List.range_succ, List.filter_cons, List.filter_nil])
  have e3 := vix_ladder_budget_spec [⟨3800, 2, 1/4⟩] 1000000 4000 (3/2) 0 0 0 20
    defaultLadderAllocs 0 [375] 750 15000 (by simp)
    (by norm_num [solve_vix_ladder_lp, greedyOverRungs, greedyLoop, sortByCost,
      insertByCost, getOrErr, rungOf, defaultLadderAllocs, LadderAlloc.budgetFrac,
      List.range_succ, List.filter_cons, List.filter_nil])
  have e4 := vix_ladder_budget_spec [⟨3800, 2, 1/4⟩] 1000000 4000 (1/2) 0 0 0 20
    defaultLadderAllocs 0 [250] 500 10000 (by simp)
    (by norm_num [solve_vix_ladder_lp, greedyOverRungs, greedyLoop, sortByCost,
      insertByCost, getOrErr, rungOf, defaultLadderAllocs, LadderAlloc.budgetFrac,
      List.range_succ, List.filter_cons, List.filter_nil])
  exact ⟨e1.1, e2.1, e3.1, e4.1⟩

/-- C8: as stated the claim is false — the greedy path can fail.  With a
single candidate put of premium 0 falling in the shallow rung, the greedy
loop divides the rung budget by the option's zero cost
(`ZeroDivisionError` in the source), modelled as `.error ()`. -/
theorem vix_ladder_greedy_cex :
    solve_vix_ladder_lp [⟨3800, 0, 1/4⟩] 1000000 4000 1 0 0 0 20
      defaultLadderAllocs 0 = .error () := by
  norm_num [solve_vix_ladder_lp, greedyOverRungs, greedyLoop, sortByCost,
    insertByCost, getOrErr, rungOf, defaultLadderAllocs, LadderAlloc.budgetFrac,
    List.range_succ, List.filter_cons, List.filter_nil]

/-- C8 (amended): empty input returns `([], 0.0, 0.0)`; and the greedy
path terminates with an aligned, everywhere-nonnegative quantities list —
never an error — provided every option's unit cost
`premium * (1 + transaction_cost_rate)` is strictly positive, `S0` is
nonzero, and at least the four required budget fractions are supplied (the
default allocation table satisfies the latter). -/
theorem vix_ladder_greedy_spec :
    (∀ (V0 S0 beta sigma T_years alpha vix tcr : ℚ) (allocs : List LadderAlloc),
      solve_vix_ladder_lp [] V0 S0 beta sigma T_years alpha vix allocs tcr
        = .ok ([], 0, 0)) ∧
    (∀ (options : List PutOption) (V0 S0 beta sigma T_years alpha vix tcr : ℚ)
        (allocs : List LadderAlloc),
      S0 ≠ 0 →
      (∀ o ∈ options, 0 < o.premium * (1 + tcr)) →
      4 ≤ allocs.length →
      ∃ qs tc b,
        solve_vix_ladder_lp options V0 S0 beta sigma T_years alpha vix allocs tcr
          = .ok (qs, tc, b) ∧
        qs.length = options.length ∧ (∀ q ∈ qs, 0 ≤ q)) := by
  constructor
  · intro V0 S0 beta sigma T_years alpha vix tcr allocs
    rw [solve_vix_ladder_lp, if_pos rfl]
  · intro options V0 S0 beta sigma T_years alpha vix tcr allocs hS hcpos hlen
    by_cases hne : options = []
    · subst hne
      exact ⟨[], 0, 0, by rw [solve_vix_ladder_lp, if_pos rfl], rfl, by simp⟩
    · have hrungs : ∀ k : ℕ,
          ∀ j ∈ ((List.range 4).map (fun k =>
            (List.range options.length).filter (fun j =>
              decide (rungOf ((S0 - (options.getD j ⟨0, 0, 0⟩).strike) / S0) = k)))).getD k [],
          0 < (options.map (fun o => o.premium * (1 + tcr))).getD j 0 := by
        intro k j hj
        rcases lt_or_le k 4 with hk | hk
        · rw [List.getD_eq_getElem?_getD, List.getElem?_map,
            List.getElem?_range hk] at hj
          simp only [Option.map_some', Option.getD_some] at hj
          have hjrange : j ∈ List.range options.length := (List.mem_filter.mp hj).1
          have hjlt : j < options.length := List.mem_range.mp hjrange
          have hget : (options.map (fun o => o.premium * (1 + tcr))).getD j 0
              = (options.get ⟨j, hjlt⟩).premium * (1 + tcr) := by
            rw [List.getD_eq_getElem?_getD, List.getElem?_map,
              List.getElem?_eq_getElem hjlt]
            simp
          rw [hget]
          exact hcpos _ (List.get_mem options j hjlt)
        · rw [List.getD_eq_getElem?_getD] at hj
          rw [List.getElem?_eq_none (by simpa using hk)] at hj
          simp at hj
      have hfr : ∀ k ∈ [0, 1, 2, 3],
          k < (allocs.map LadderAlloc.budgetFrac).length := by
        intro k hkmem
        rw [List.length_map]
        fin_cases hkmem <;> omega
      obtain ⟨x', hx', hlen', hpos⟩ :=
        greedyOverRungs_total (V0 * (1/100) * (vix / 20) * max 1 beta)
          (options.map (fun o => o.premium * (1 + tcr)))
          (allocs.map LadderAlloc.budgetFrac) _ hrungs [0, 1, 2, 3]
          (List.replicate options.length 0) hfr
          (by intro q hq; rw [(List.mem_replicate.mp hq).2])
      refine ⟨x',
        ((List.range options.length).map (fun j =>
          (options.map (fun o => o.premium * (1 + tcr))).getD j 0 * x'.getD j 0)).sum,
        V0 * (1/100) * (vix / 20) * max 1 beta, ?_, ?_, hpos⟩
      · simp only [solve_vix_ladder_lp]
        rw [if_neg hne, if_neg hS, hx']
      · rw [hlen', List.length_replicate]

/-- Closed instantiation of `vix_ladder_greedy_spec`: the empty case at
concrete parameters, and a two-option chain (premiums 2 and 3, strikes 5%
and 20% out of the money at `S0 = 4000`) on which the greedy path returns
a result. -/
theorem vix_ladder_greedy_spec_witness :
    solve_vix_ladder_lp [] 1000000 4000 1 0 0 0 20 defaultLadderAllocs 0
      = .ok ([], 0, 0) ∧
    ∃ qs tc b,
      solve_vix_ladder_lp [⟨3800, 2, 1/4⟩, ⟨3200, 3, 1/4⟩] 1000000 4000 1 0 0 0 20
        defaultLadderAllocs 0 = .ok (qs, tc, b) ∧
      qs.length = 2 ∧ (∀ q ∈ qs, 0 ≤ q) := by
  constructor
  · exact vix_ladder_greedy_spec.1 1000000 4000 1 0 0 0 20 0 defaultLadderAllocs
  · exact vix_ladder_greedy_spec.2 [⟨3800, 2, 1/4⟩, ⟨3200, 3, 1/4⟩]
      1000000 4000 1 0 0 0 20 0 defaultLadderAllocs (by norm_num)
      (by intro o ho; fin_cases ho <;> norm_num) (by norm_num [defaultLadderAllocs])

/-- Input bundle of `solve_fixed_floor_lp`
(`src/options_hedge/fixed_floor_lp.py`): candidate strikes `Is`, scenarios
`S` (both label lists, modelled by natural-number labels), strike prices
`K`, per-unit premiums `p`, base portfolio value `Q`, scenario returns `r`
and loss tolerance `L`. -/
structure FFInput where
  Is : List ℕ
  S : List ℕ
  K : ℕ → ℚ
  p : ℕ → ℚ
  Q : ℚ
  r : ℕ → ℚ
  L : ℚ

/-- `V[s] = Q * (1.0 + r[s])`: the unhedged scenario value. -/
def FFInput.V (inp : FFInput) (s : ℕ) : ℚ := inp.Q * (1 + inp.r s)

/-- `F = Q * (1.0 - L)`: the floor. -/
def FFInput.F (inp : FFInput) : ℚ := inp.Q * (1 - inp.L)

/-- `Payoff[i, s] = max(0.0, K[i] - V[s])`. -/
def FFInput.Payoff (inp : FFInput) (i s : ℕ) : ℚ :=
  max 0 (inp.K i - inp.V s)

/-- The feasible region the code hands to the LP solver: `x ≥ 0`, `z ≥ 0`
and, for every scenario, the source's constraint
`V[s] + Σ_i Payoff[i,s]*x[i] - z[s] >= F` (note the minus sign on the
slack, `fixed_floor_lp.py` line 43). -/
def ffFeasibleCode (inp : FFInput) (x z : ℕ → ℚ) : Prop :=
  (∀ i ∈ inp.Is, 0 ≤ x i) ∧ (∀ s ∈ inp.S, 0 ≤ z s) ∧
  ∀ s ∈ inp.S,
    inp.F ≤ inp.V s + ((inp.Is.map (fun i => inp.Payoff i s * x i)).sum) - z s

/-- The feasible region of the spec's penalized fixed-floor form:
`V[s] + Σ_i Payoff[i,s]*x[i] + z[s] >= F` with the slack added, which is
what the comment in the source ("z[s] = shortfall below floor") and the
original `LP.py` formulation describe. -/
def ffFeasibleSpec (inp : FFInput) (x z : ℕ → ℚ) : Prop :=
  (∀ i ∈ inp.Is, 0 ≤ x i) ∧ (∀ s ∈ inp.S, 0 ≤ z s) ∧
  ∀ s ∈ inp.S,
    inp.F ≤ inp.V s + ((inp.Is.map (fun i => inp.Payoff i s * x i)).sum) + z s

/-- A concrete fixed-floor instance on which the two formulations differ:
one strike labelled 0 with `K = 50`, premium 1, one scenario labelled 0
with return `-0.5`, `Q = 100 > 0`, `L = 0 ∈ [0, 1)`. -/
def ffCrashInput : FFInput :=
  { Is := [0], S := [0], K := fun _ => 50, p := fun _ => 1,
    Q := 100, r := fun _ => -(1/2), L := 0 }

/-- C1: on `ffCrashInput` (`V = 50`, `F = 100`, every payoff 0) the
constraint set the code builds — with `- z[s]` instead of the spec's
`+ z[s]` — is empty, so a sound LP solver reports infeasible and
`solve_fixed_floor_lp` returns `status='infeasible'`, contradicting the
claim that the penalized form is implemented and the status is never
'infeasible'; the spec's `+ z[s]` form is feasible there (take `x = 0`,
`z = 50`), as the claim demands. -/
theorem fixed_floor_infeasible_cex :
    (¬ ∃ x z : ℕ → ℚ, ffFeasibleCode ffCrashInput x z) ∧
    (∃ x z : ℕ → ℚ, ffFeasibleSpec ffCrashInput x z) := by
  constructor
  · rintro ⟨x, z, -, hz, hcon⟩
    have hz0 : 0 ≤ z 0 := hz 0 (by simp [ffCrashInput])
    have hc := hcon 0 (by simp [ffCrashInput])
    have hV : ffCrashInput.V 0 = 50 := by
      norm_num [FFInput.V, ffCrashInput]
    have hF : ffCrashInput.F = 100 := by
      norm_num [FFInput.F, ffCrashInput]
    have hsum : ((ffCrashInput.Is.map
        (fun i => ffCrashInput.Payoff i 0 * x i)).sum) = 0 := by
      norm_num [ffCrashInput, FFInput.Payoff, FFInput.V, max_def]
    rw [hV, hF, hsum] at hc
    linarith
  · refine ⟨fun _ => 0, fun _ => 50, by intro i _; exact le_refl 0,
      by intro s _; norm_num, ?_⟩
    intro s hs
    simp only [ffCrashInput, List.mem_singleton] at hs
    subst hs
    have hV : ffCrashInput.V 0 = 50 := by
      norm_num [FFInput.V, ffCrashInput]
    have hF : ffCrashInput.F = 100 := by
      norm_num [FFInput.F, ffCrashInput]
    rw [hV, hF]
    norm_num [ffCrashInput, FFInput.Payoff, FFInput.V]

end OptionsHedge
